import Mathlib

/-!
Verification of the `lenient_bool` crate (`src/lib.rs`).

Strings are embedded as lists of bytes (`List Nat`); Rust's
`str::eq_ignore_ascii_case` compares byte-by-byte after per-byte ASCII
lowercasing, which is modelled faithfully below.
-/

/-- ASCII byte lowercasing, as in Rust's `u8::to_ascii_lowercase`:
bytes 65..=90 (`A`..`Z`) map to 97..=122 (`a`..`z`), all others unchanged. -/
def to_ascii_lowercase (b : Nat) : Nat :=
  if 65 ≤ b ∧ b ≤ 90 then b + 32 else b

/-- Rust's `str::eq_ignore_ascii_case`: equal length, and corresponding
bytes are equal after ASCII lowercasing. -/
def eq_ignore_ascii_case : List Nat → List Nat → Bool
  | [], [] => true
  | a :: s, b :: t =>
      (to_ascii_lowercase a == to_ascii_lowercase b) && eq_ignore_ascii_case s t
  | _, _ => false

/-- Byte list of an ASCII string literal (used only on ASCII literals,
where a Rust `str`'s UTF-8 bytes are the characters' code points). -/
def bytes (s : String) : List Nat := s.data.map Char.toNat

/-- The `LenientBool` newtype from `src/lib.rs`: a single public `bool` field. -/
structure LenientBool where
  val : Bool
deriving DecidableEq

/-- The `LenientBoolError` error type from `src/lib.rs`: a struct with a
single unit payload, hence a single value. -/
structure LenientBoolError where
  payload : Unit
deriving DecidableEq

deriving instance DecidableEq for Except

/-- The truthy condition of `LenientBool::from_str` (lib.rs lines 34-38):
case-insensitive match of `true`, `t`, `yes`, `y`, or exact match of `1`. -/
def truthy_cond (s : List Nat) : Bool :=
  eq_ignore_ascii_case s (bytes "true")
  || eq_ignore_ascii_case s (bytes "t")
  || eq_ignore_ascii_case s (bytes "yes")
  || eq_ignore_ascii_case s (bytes "y")
  || s == bytes "1"

/-- The falsy condition of `LenientBool::from_str` (lib.rs lines 41-45):
case-insensitive match of `false`, `f`, `no`, `n`, or exact match of `0`. -/
def falsy_cond (s : List Nat) : Bool :=
  eq_ignore_ascii_case s (bytes "false")
  || eq_ignore_ascii_case s (bytes "f")
  || eq_ignore_ascii_case s (bytes "no")
  || eq_ignore_ascii_case s (bytes "n")
  || s == bytes "0"

/-- `LenientBool::from_str` (lib.rs lines 33-50): truthy tokens first,
then falsy tokens, otherwise `LenientBoolError(())`. -/
def from_str (s : List Nat) : Except LenientBoolError LenientBool :=
  if truthy_cond s then Except.ok ⟨true⟩
  else if falsy_cond s then Except.ok ⟨false⟩
  else Except.error ⟨()⟩

/-- `impl From<LenientBool> for bool` (lib.rs lines 53-55): extract the field. -/
def bool_from_lenient (n : LenientBool) : Bool := n.val

/-- `impl From<bool> for LenientBool` (lib.rs lines 57-59): wrap the value. -/
def lenient_from_bool (b : Bool) : LenientBool := ⟨b⟩

/-- `impl AsRef<bool> for LenientBool` (lib.rs lines 61-65): a reference to
the field, modelled as the field's value. -/
def as_ref (n : LenientBool) : Bool := n.val

/-- `impl Deref for LenientBool` (lib.rs lines 73-78): dereferences to the
field, modelled as the field's value. -/
def deref (n : LenientBool) : Bool := n.val

/-- `#[derive(Default)]` on `LenientBool` (lib.rs line 25): wraps
`bool::default()`, i.e. `false` (Lean's `default : Bool` is `false`). -/
def lenientBoolDefault : LenientBool := ⟨default⟩

/-- `#[derive(PartialEq)]` on `LenientBool` (lib.rs line 25): field-wise
equality of the single `bool` field. -/
def lenientBoolBeq (a b : LenientBool) : Bool := a.val == b.val

/-- Rust's `Ord for bool`: `false < true`. -/
def boolCmp (a b : Nat) : Ordering := compare a b

/-- `#[derive(Ord)]` on `LenientBool` (lib.rs line 25): compares the single
field with `bool`'s order, where `false < true` (encoded 0 and 1). -/
def lenientBoolCmp (a b : LenientBool) : Ordering :=
  boolCmp (cond a.val 1 0) (cond b.val 1 0)

/-- Per-byte ASCII lowercasing of a byte list. -/
def foldList (s : List Nat) : List Nat := s.map to_ascii_lowercase

/-- ASCII uppercase test on a byte, as in Rust's `u8::is_ascii_uppercase`. -/
def is_ascii_uppercase (b : Nat) : Bool := decide (65 ≤ b) && decide (b ≤ 90)

/-- ASCII lowercase test on a byte, as in Rust's `u8::is_ascii_lowercase`. -/
def is_ascii_lowercase (b : Nat) : Bool := decide (97 ≤ b) && decide (b ≤ 122)

/-- Swap the case of an ASCII letter byte; other bytes are unchanged. -/
def toggle_ascii_case (b : Nat) : Nat :=
  if is_ascii_uppercase b then b + 32
  else if is_ascii_lowercase b then b - 32
  else b

/-- A byte is a case-variant of a token byte when it is the byte itself or
its case-toggled form. -/
def isCaseVariantByte (a t : Nat) : Bool := a == t || a == toggle_ascii_case t

/-- A byte list is an ASCII case-variant of a token when it chooses, at each
position, either the token's byte or its case-toggled form (upper, lower and
mixed-case variants all satisfy this). -/
def isCaseVariant : List Nat → List Nat → Bool
  | [], [] => true
  | a :: s, b :: t => isCaseVariantByte a b && isCaseVariant s t
  | _, _ => false

theorem eq_ignore_iff_fold (s t : List Nat) :
    eq_ignore_ascii_case s t = true ↔ foldList s = foldList t := by
  induction s generalizing t with
  | nil => cases t <;> simp [eq_ignore_ascii_case, foldList]
  | cons a s ih =>
    cases t with
    | nil => simp [eq_ignore_ascii_case, foldList]
    | cons b t =>
      simp [eq_ignore_ascii_case, foldList, Bool.and_eq_true, beq_iff_eq, ih,
        List.map_cons]

theorem lower_eq_digit {b d : Nat} (hd : d < 97 ∨ 122 < d) (h : to_ascii_lowercase b = d) :
    b = d := by
  unfold to_ascii_lowercase at h
  split at h <;> omega

theorem exact_one_iff (s : List Nat) :
    s = bytes "1" ↔ foldList s = foldList (bytes "1") := by
  constructor
  · intro h
    subst h
    rfl
  · intro h
    have e : foldList (bytes "1") = [49] := by decide
    rw [e] at h
    match s with
    | [] => simp [foldList] at h
    | [b] =>
      simp [foldList] at h
      have hb : b = 49 := lower_eq_digit (by omega) h
      subst hb
      decide
    | a :: c :: t => simp [foldList] at h

theorem exact_zero_iff (s : List Nat) :
    s = bytes "0" ↔ foldList s = foldList (bytes "0") := by
  constructor
  · intro h
    subst h
    rfl
  · intro h
    have e : foldList (bytes "0") = [48] := by decide
    rw [e] at h
    match s with
    | [] => simp [foldList] at h
    | [b] =>
      simp [foldList] at h
      have hb : b = 48 := lower_eq_digit (by omega) h
      subst hb
      decide
    | a :: c :: t => simp [foldList] at h

theorem truthy_iff (s : List Nat) :
    truthy_cond s = true ↔
      foldList s = foldList (bytes "true") ∨ foldList s = foldList (bytes "t") ∨
      foldList s = foldList (bytes "yes") ∨ foldList s = foldList (bytes "y") ∨
      foldList s = foldList (bytes "1") := by
  simp only [truthy_cond, Bool.or_eq_true, beq_iff_eq, eq_ignore_iff_fold, exact_one_iff]
  tauto

theorem falsy_iff (s : List Nat) :
    falsy_cond s = true ↔
      foldList s = foldList (bytes "false") ∨ foldList s = foldList (bytes "f") ∨
      foldList s = foldList (bytes "no") ∨ foldList s = foldList (bytes "n") ∨
      foldList s = foldList (bytes "0") := by
  simp only [falsy_cond, Bool.or_eq_true, beq_iff_eq, eq_ignore_iff_fold, exact_zero_iff]
  tauto

theorem lower_toggle (b : Nat) :
    to_ascii_lowercase (toggle_ascii_case b) = to_ascii_lowercase b := by
  simp only [toggle_ascii_case, to_ascii_lowercase, is_ascii_uppercase, is_ascii_lowercase,
    Bool.and_eq_true, decide_eq_true_eq]
  split_ifs <;> omega

theorem caseVariant_eq_ignore (s t : List Nat) (h : isCaseVariant s t = true) :
    eq_ignore_ascii_case s t = true := by
  induction s generalizing t with
  | nil => cases t <;> simp_all [isCaseVariant, eq_ignore_ascii_case]
  | cons a s ih =>
    cases t with
    | nil => simp_all [isCaseVariant]
    | cons b t =>
      simp only [isCaseVariant, Bool.and_eq_true] at h
      obtain ⟨hb, hrest⟩ := h
      simp only [eq_ignore_ascii_case, Bool.and_eq_true, beq_iff_eq]
      refine ⟨?_, ih t hrest⟩
      simp only [isCaseVariantByte, Bool.or_eq_true, beq_iff_eq] at hb
      rcases hb with rfl | rfl
      · rfl
      · exact lower_toggle b

/-- All ten accepted tokens, truthy then falsy. -/
def allTokens : List (List Nat) :=
  [bytes "true", bytes "t", bytes "yes", bytes "y", bytes "1",
   bytes "false", bytes "f", bytes "no", bytes "n", bytes "0"]

theorem from_str_error_iff (s : List Nat) :
    from_str s = Except.error ⟨()⟩ ↔ truthy_cond s = false ∧ falsy_cond s = false := by
  unfold from_str
  split_ifs with h1 h2 <;> simp_all

theorem truthy_not_falsy (s : List Nat) (h : truthy_cond s = true) :
    falsy_cond s = false := by
  rw [truthy_iff] at h
  rw [← Bool.not_eq_true, falsy_iff]
  rcases h with h | h | h | h | h <;> rw [h] <;> decide

/-- C1: for every token in the truthy set {true, t, yes, y, 1} and every
ASCII case-variant of it (upper, lower, mixed), `from_str` succeeds and
returns `LenientBool true`. -/
theorem c1_truthy_case_variants (s t : List Nat)
    (ht : t ∈ [bytes "true", bytes "t", bytes "yes", bytes "y", bytes "1"])
    (hv : isCaseVariant s t = true) :
    from_str s = Except.ok ⟨true⟩ := by
  have he := caseVariant_eq_ignore s t hv
  rw [eq_ignore_iff_fold] at he
  have hc : truthy_cond s = true := by
    rw [truthy_iff]
    fin_cases ht <;> simp_all
  simp [from_str, hc]

theorem c1_truthy_case_variants_witness :
    isCaseVariant (bytes "TrUe") (bytes "true") = true ∧
    from_str (bytes "TrUe") = Except.ok ⟨true⟩ :=
  ⟨by decide, c1_truthy_case_variants (bytes "TrUe") (bytes "true") (by decide) (by decide)⟩

/-- C2: for every token in the falsy set {false, f, no, n, 0} and every
ASCII case-variant of it, `from_str` succeeds and returns `LenientBool false`. -/
theorem c2_falsy_case_variants (s t : List Nat)
    (ht : t ∈ [bytes "false", bytes "f", bytes "no", bytes "n", bytes "0"])
    (hv : isCaseVariant s t = true) :
    from_str s = Except.ok ⟨false⟩ := by
  have he := caseVariant_eq_ignore s t hv
  rw [eq_ignore_iff_fold] at he
  have hf : falsy_cond s = true := by
    rw [falsy_iff]
    fin_cases ht <;> simp_all
  have htc : truthy_cond s = false := by
    rw [← Bool.not_eq_true, truthy_iff]
    fin_cases ht <;> rw [he] <;> decide
  simp [from_str, htc, hf]

theorem c2_falsy_case_variants_witness :
    isCaseVariant (bytes "nO") (bytes "no") = true ∧
    from_str (bytes "nO") = Except.ok ⟨false⟩ :=
  ⟨by decide, c2_falsy_case_variants (bytes "nO") (bytes "no") (by decide) (by decide)⟩

/-- C3: `from_str` fails with the single `LenientBoolError` value exactly
when the input is not ASCII-case-insensitively equal to any of the ten
tokens; it succeeds only on those ten tokens modulo ASCII case. -/
theorem c3_error_iff_unrecognized (s : List Nat) :
    from_str s = Except.error ⟨()⟩ ↔
      ∀ t ∈ allTokens, eq_ignore_ascii_case s t = false := by
  rw [from_str_error_iff]
  constructor
  · rintro ⟨h1, h2⟩ t htmem
    have h1' : ¬ (foldList s = foldList (bytes "true") ∨ foldList s = foldList (bytes "t") ∨
        foldList s = foldList (bytes "yes") ∨ foldList s = foldList (bytes "y") ∨
        foldList s = foldList (bytes "1")) := by
      rw [← truthy_iff]
      simp [h1]
    have h2' : ¬ (foldList s = foldList (bytes "false") ∨ foldList s = foldList (bytes "f") ∨
        foldList s = foldList (bytes "no") ∨ foldList s = foldList (bytes "n") ∨
        foldList s = foldList (bytes "0")) := by
      rw [← falsy_iff]
      simp [h2]
    rw [← Bool.not_eq_true, eq_ignore_iff_fold]
    fin_cases htmem <;> tauto
  · intro h
    have key : ∀ t ∈ allTokens, ¬ foldList s = foldList t := by
      intro t htm
      have h' : ¬ (eq_ignore_ascii_case s t = true) := by simp [h t htm]
      rwa [eq_ignore_iff_fold] at h'
    constructor
    · rw [← Bool.not_eq_true, truthy_iff]
      rintro (hd | hd | hd | hd | hd)
      · exact key (bytes "true") (by decide) hd
      · exact key (bytes "t") (by decide) hd
      · exact key (bytes "yes") (by decide) hd
      · exact key (bytes "y") (by decide) hd
      · exact key (bytes "1") (by decide) hd
    · rw [← Bool.not_eq_true, falsy_iff]
      rintro (hd | hd | hd | hd | hd)
      · exact key (bytes "false") (by decide) hd
      · exact key (bytes "f") (by decide) hd
      · exact key (bytes "no") (by decide) hd
      · exact key (bytes "n") (by decide) hd
      · exact key (bytes "0") (by decide) hd

/-- C4: the digit tokens are matched only as exact byte sequences, with no
numeric parsing or whitespace trimming: `01`, `1.0`, ` 1` and ` yes` all
fail with the parse error. -/
theorem c4_exact_digits_no_trim :
    from_str (bytes "01") = Except.error ⟨()⟩ ∧
    from_str (bytes "1.0") = Except.error ⟨()⟩ ∧
    from_str (bytes " 1") = Except.error ⟨()⟩ ∧
    from_str (bytes " yes") = Except.error ⟨()⟩ := by
  decide

/-- C5: wrapping a native boolean into a `LenientBool` and converting it
back yields the original boolean. -/
theorem c5_round_trip (b : Bool) : bool_from_lenient (lenient_from_bool b) = b := rfl

/-- Modelled from the spec's glossary: case-insensitive (ASCII) comparison
"folds `A`–`Z` and `a`–`z` as equivalent but does not alter or fold any
other character". Two bytes are equivalent when they are equal, or when one
is an ASCII uppercase letter and the other is its lowercase form (32 apart). -/
def asciiCaseEquivByte (a b : Nat) : Bool :=
  a == b
  || (is_ascii_uppercase a && b == a + 32)
  || (is_ascii_uppercase b && a == b + 32)

theorem lower_eq_iff_equivByte (a b : Nat) :
    (to_ascii_lowercase a == to_ascii_lowercase b) = asciiCaseEquivByte a b := by
  rw [Bool.eq_iff_iff]
  simp only [asciiCaseEquivByte, to_ascii_lowercase, is_ascii_uppercase,
    Bool.or_eq_true, Bool.and_eq_true, beq_iff_eq, decide_eq_true_eq]
  split_ifs <;> omega

/-- C6: the matcher used by `from_str` folds case only for the ASCII
letters: a string matches a token exactly when it has the same length and
each byte pair is equal up to ASCII case folding (equal, or an A-Z byte
paired with the byte 32 above it); moreover no non-ASCII byte (≥ 128) is
ever altered by the fold, so such bytes are compared literally. -/
theorem c6_ascii_only_folding :
    (∀ s t : List Nat, eq_ignore_ascii_case s t =
      ((s.length == t.length) &&
        (List.zip s t).all fun p => asciiCaseEquivByte p.fst p.snd)) ∧
    (∀ b : Nat, to_ascii_lowercase (128 + b) = 128 + b) := by
  constructor
  · intro s t
    induction s generalizing t with
    | nil => cases t <;> simp [eq_ignore_ascii_case]
    | cons a s ih =>
      cases t with
      | nil => simp [eq_ignore_ascii_case]
      | cons b t =>
        simp only [eq_ignore_ascii_case, List.zip_cons_cons, List.all_cons,
          List.length_cons, lower_eq_iff_equivByte, ih]
        have e : ((s.length + 1 : Nat) == t.length + 1) = (s.length == t.length) := by
          rw [Bool.eq_iff_iff]
          simp
        rw [e, Bool.and_left_comm]
  · intro b
    unfold to_ascii_lowercase
    split <;> omega

/-- A variant of `from_str` that checks the falsy tokens before the truthy
ones, used to state that the matching order is unobservable. -/
def from_str_falsy_first (s : List Nat) : Except LenientBoolError LenientBool :=
  if falsy_cond s then Except.ok ⟨false⟩
  else if truthy_cond s then Except.ok ⟨true⟩
  else Except.error ⟨()⟩

/-- C7: no input satisfies both the truthy and the falsy test, and hence a
parser that checks the falsy set first agrees with `from_str` on every
input. -/
theorem c7_order_unobservable :
    (∀ s, (truthy_cond s && falsy_cond s) = false) ∧
    (∀ s, from_str_falsy_first s = from_str s) := by
  constructor
  · intro s
    by_cases h : truthy_cond s = true
    · simp [h, truthy_not_falsy s h]
    · simp only [Bool.not_eq_true] at h
      simp [h]
  · intro s
    unfold from_str from_str_falsy_first
    by_cases h1 : truthy_cond s = true
    · simp [h1, truthy_not_falsy s h1]
    · simp only [Bool.not_eq_true] at h1
      simp [h1]

/-- C8: the default `LenientBool` wraps `false`. -/
theorem c8_default_false : lenientBoolDefault = ⟨false⟩ := rfl

/-- C9: all read accessors agree: `deref`, `as_ref` and the conversion to
`bool` all return the wrapped field. -/
theorem c9_accessors_agree (n : LenientBool) :
    deref n = n.val ∧ as_ref n = n.val ∧ bool_from_lenient n = n.val :=
  ⟨rfl, rfl, rfl⟩

/-- C10: the derived equality on `LenientBool` agrees with equality of the
wrapped booleans, and `LenientBool false` orders strictly before
`LenientBool true` under the derived comparison. -/
theorem c10_eq_ord_agree :
    (∀ a b : LenientBool, (lenientBoolBeq a b = true ↔ a = b) ∧ (a = b ↔ a.val = b.val)) ∧
    lenientBoolCmp ⟨false⟩ ⟨true⟩ = Ordering.lt := by
  refine ⟨fun a b => ⟨?_, ?_⟩, by decide⟩
  · cases a
    cases b
    simp [lenientBoolBeq]
  · cases a
    cases b
    simp
